import Mathlib

/-! Shallow embedding of the polynomial root-solving core of the Numerix
repository (namespace `nxx::poly` of `Polyroots.hpp`): the root sorter
`impl::sortRoots`, the analytic solvers `linear`, `quadratic` and `cubic`,
the iterative `laguerre` finder, the Newton polishing lambda `newt` of
`polysolve`, and the deflation orchestrator `polysolve` itself.

Numbers: the C++ code computes with IEEE doubles and `std::complex<double>`;
the embedding idealises them as exact rationals (ℚ) and pairs of rationals.
A magnitude test `abs(z) < t` on a complex value is embedded as
`normSq z < t^2`, and `abs(x) < sqrt t` on a real value as `x^2 < t`; both
rewritings are exact over ideal arithmetic whenever `t ≥ 0`, and every such
test in the source runs behind a `tolerance > 0` validation.  The
collaborators the source calls but does not implement — `std::sqrt` and
`std::pow(·, 1/3)` on complex numbers, the `std::mt19937` random draws and
`std::isfinite` — are parameters of the embedding, collected in `Oracles`. -/

namespace Numerix

/-- A complex number with exact rational components: the embedding of
`std::complex<double>`. -/
@[ext]
structure CC where
  re : ℚ
  im : ℚ
deriving DecidableEq

namespace CC

/-- Embeds a real scalar, as the C++ code mixes `double` and
`std::complex<double>` operands. -/
def ofRat (q : ℚ) : CC := ⟨q, 0⟩

/-- Complex conjugate `std::conj`. -/
def conj (a : CC) : CC := ⟨a.re, -a.im⟩

/-- Squared magnitude: the exact value of `abs(z)^2`. -/
def normSq (a : CC) : ℚ := a.re * a.re + a.im * a.im

instance : Zero CC := ⟨⟨0, 0⟩⟩

instance : One CC := ⟨⟨1, 0⟩⟩

instance : Add CC := ⟨fun a b => ⟨a.re + b.re, a.im + b.im⟩⟩

instance : Neg CC := ⟨fun a => ⟨-a.re, -a.im⟩⟩

instance : Sub CC := ⟨fun a b => a + -b⟩

instance : Mul CC := ⟨fun a b => ⟨a.re * b.re - a.im * b.im, a.re * b.im + a.im * b.re⟩⟩

/-- Complex division `a / b` by the Gauss formula `a * conj b / |b|^2`;
like ℚ, division by zero yields zero. -/
instance : Div CC :=
  ⟨fun a b => ⟨(a.re * b.re + a.im * b.im) / normSq b, (a.im * b.re - a.re * b.im) / normSq b⟩⟩

@[simp] theorem zero_re : (0 : CC).re = 0 := rfl

@[simp] theorem zero_im : (0 : CC).im = 0 := rfl

@[simp] theorem one_re : (1 : CC).re = 1 := rfl

@[simp] theorem one_im : (1 : CC).im = 0 := rfl

@[simp] theorem add_re (a b : CC) : (a + b).re = a.re + b.re := rfl

@[simp] theorem add_im (a b : CC) : (a + b).im = a.im + b.im := rfl

@[simp] theorem mul_re (a b : CC) : (a * b).re = a.re * b.re - a.im * b.im := rfl

@[simp] theorem mul_im (a b : CC) : (a * b).im = a.re * b.im + a.im * b.re := rfl

@[simp] theorem neg_re (a : CC) : (-a).re = -a.re := rfl

@[simp] theorem neg_im (a : CC) : (-a).im = -a.im := rfl

@[simp] theorem ofRat_re (q : ℚ) : (ofRat q).re = q := rfl

@[simp] theorem ofRat_im (q : ℚ) : (ofRat q).im = 0 := rfl

@[simp] theorem conj_re (a : CC) : (conj a).re = a.re := rfl

@[simp] theorem conj_im (a : CC) : (conj a).im = -a.im := rfl

instance addCommGroup : AddCommGroup CC := by
  refine
  { add := (· + ·)
    zero := (0 : CC)
    sub := fun a b => a + -b
    neg := Neg.neg
    nsmul := @nsmulRec CC ⟨0⟩ ⟨(· + ·)⟩
    zsmul := @zsmulRec CC ⟨0⟩ ⟨(· + ·)⟩ ⟨Neg.neg⟩ (@nsmulRec CC ⟨0⟩ ⟨(· + ·)⟩)
    add_assoc := ?_
    zero_add := ?_
    add_zero := ?_
    neg_add_cancel := ?_
    add_comm := ?_ } <;>
  intros <;>
  ext <;>
  simp [add_comm, add_left_comm]

@[simp] theorem sub_re (a b : CC) : (a - b).re = a.re - b.re := by
  show (a + -b).re = _
  simp
  ring

@[simp] theorem sub_im (a b : CC) : (a - b).im = a.im - b.im := by
  show (a + -b).im = _
  simp
  ring

instance addGroupWithOne : AddGroupWithOne CC :=
  { Numerix.CC.addCommGroup with
    natCast := fun n => ⟨n, 0⟩
    intCast := fun n => ⟨n, 0⟩
    one := 1
    natCast_zero := by ext <;> simp
    natCast_succ := fun n => by ext <;> simp
    intCast_ofNat := fun n => by
      show (⟨((Int.ofNat n : ℤ) : ℚ), 0⟩ : CC) = ⟨((n : ℕ) : ℚ), 0⟩
      ext <;> simp
    intCast_negSucc := fun n => by
      show (⟨((Int.negSucc n : ℤ) : ℚ), 0⟩ : CC) = -⟨((n + 1 : ℕ) : ℚ), 0⟩
      apply CC.ext
      · show ((Int.negSucc n : ℤ) : ℚ) = -((n + 1 : ℕ) : ℚ)
        push_cast [Int.negSucc_eq]
        ring
      · show (0 : ℚ) = -0
        simp }

instance commRing : CommRing CC := by
  refine
  { Numerix.CC.addGroupWithOne with
    mul := (· * ·)
    npow := @npowRec CC ⟨1⟩ ⟨(· * ·)⟩
    add_comm := ?_
    left_distrib := ?_
    right_distrib := ?_
    zero_mul := ?_
    mul_zero := ?_
    mul_assoc := ?_
    one_mul := ?_
    mul_one := ?_
    mul_comm := ?_ } <;>
  intros <;>
  ext <;>
  simp <;>
  try ring

theorem conj_mul_neg_re (b s : CC) : (conj b * -s).re = -(conj b * s).re := by
  simp
  try ring

end CC

/-- Coefficient sequence of a polynomial, constant term first, leading
coefficient last (spec §3): the embedding of the collaborator `Polynomial`
value type. -/
abbrev Poly := List CC

/-- Modelled from the spec: `Polynomial::order()` (`Polynomial.hpp` is not
among the repository's files) — "`order` = length−1" (spec §3). -/
def order (p : Poly) : ℕ := p.length - 1

/-- Modelled from the spec: evaluation `poly(x)` of the collaborator
`Polynomial` type, in Horner form over the constant-first coefficients. -/
def evalPoly (p : Poly) (x : CC) : CC := p.foldr (fun c acc => c + x * acc) 0

/-- Helper for `derivativeOf`: coefficient `c_k` of the input (position
counted by the first argument) contributes `k · c_k` one position lower. -/
def derivAux : ℕ → List CC → List CC
  | _, [] => []
  | k, c :: cs => CC.ofRat k * c :: derivAux (k + 1) cs

/-- Modelled from the spec: `derivativeOf` applied to a polynomial — the
analytic first derivative (spec §6: the derivative operator uses the
`Polynomial` type's analytic derivative when it provides one). -/
def derivativeOf (p : Poly) : Poly := derivAux 1 p.tail

/-- Helper for `deflate`: synthetic (Horner) division step.  The remaining
coefficients come highest-first, `b` is the running carry; the result is
the quotient's coefficients highest-first and the remainder. -/
def hornerQuot (r : CC) : CC → List CC → List CC × CC
  | b, [] => ([], b)
  | b, c :: cs =>
    let q := hornerQuot r (c + r * b) cs
    (b :: q.1, q.2)

/-- Modelled from the spec: the deflation `polynomial /= Polynomial{-root, 1.0}`
— "in-place-free division by a linear factor (deflation, producing a new
polynomial of order−1)" (spec §6) — as synthetic division by `(x − r)`. -/
def deflate (p : Poly) (r : CC) : Poly :=
  match p.reverse with
  | [] => []
  | c :: cs => (hornerQuot r c cs).1.reverse

theorem hornerQuot_length (r : CC) : ∀ (cs : List CC) (b : CC),
    ((hornerQuot r b cs).1).length = cs.length
  | [], _ => rfl
  | c :: cs, b => by
    simp [hornerQuot, hornerQuot_length r cs]

/-- Deflation always produces a coefficient list exactly one shorter. -/
theorem deflate_length (p : Poly) (r : CC) : (deflate p r).length = p.length - 1 := by
  unfold deflate
  cases hrev : p.reverse with
  | nil =>
    have hp : p = [] := by simpa using congrArg List.reverse hrev
    simp [hp]
  | cons c cs =>
    have hlen : p.length = cs.length + 1 := by
      have h2 := congrArg List.length hrev
      simpa [Nat.add_comm] using h2
    simp [hornerQuot_length, hlen]

/-- Highest-first Horner evaluation with an accumulator. -/
def evalRevAux (x : CC) (a : CC) (l : List CC) : CC :=
  l.foldl (fun acc c => acc * x + c) a

theorem evalRevAux_cons (x a c : CC) (l : List CC) :
    evalRevAux x a (c :: l) = evalRevAux x (a * x + c) l := rfl

theorem evalRevAux_accum (x : CC) : ∀ (l : List CC) (a : CC),
    evalRevAux x a l = a * x ^ l.length + evalRevAux x 0 l
  | [], a => by simp [evalRevAux]
  | c :: l, a => by
    rw [evalRevAux_cons, evalRevAux_cons, evalRevAux_accum x l (a * x + c),
      evalRevAux_accum x l (0 * x + c)]
    simp [pow_succ]
    ring

theorem evalPoly_reverse (p : Poly) (x : CC) : evalPoly p x = evalRevAux x 0 p.reverse := by
  have hfun : (fun (c acc : CC) => c + x * acc) = fun c acc => acc * x + c := by
    funext c acc
    ring
  unfold evalPoly evalRevAux
  rw [List.foldl_reverse, hfun]

/-- The synthetic-division identity, highest-first: dividing the polynomial
with leading carry `b` and remaining coefficients `cs` by `(x − r)` gives
the `hornerQuot` quotient and remainder. -/
theorem hornerQuot_spec (r x : CC) : ∀ (cs : List CC) (b : CC),
    evalRevAux x b cs =
      (x - r) * evalRevAux x 0 (hornerQuot r b cs).1 + (hornerQuot r b cs).2
  | [], b => by simp [evalRevAux, hornerQuot]
  | c :: cs, b => by
    have ih := hornerQuot_spec r x cs (c + r * b)
    rw [evalRevAux_accum x cs (c + r * b)] at ih
    have hlen := hornerQuot_length r cs (c + r * b)
    show evalRevAux x b (c :: cs) =
      (x - r) * evalRevAux x 0 (b :: (hornerQuot r (c + r * b) cs).1) +
        (hornerQuot r (c + r * b) cs).2
    rw [evalRevAux_cons, evalRevAux_cons, evalRevAux_accum x cs (b * x + c),
      evalRevAux_accum x (hornerQuot r (c + r * b) cs).1 (0 * x + b), hlen]
    linear_combination ih

/-- Modelled from the spec: the library default tolerance `nxx::EPS`
(`Constants.hpp` is not among the repository's files) — polysolve's
"tolerance (default small positive constant)" (spec §4.4); the value chosen
is the double-precision machine epsilon. -/
def EPS : ℚ := 1 / 2 ^ 52

/-- Modelled from the spec: the library default iteration cap `nxx::MAXITER`
— "max iterations (default large positive constant)" (spec §4.4). -/
def MAXITER : ℤ := 100

/-- The failure outcomes of the pipeline.  Thrown `NumerixxError`s and
`tl::unexpected` payloads are both embedded as `Except.error`; the
constructor records which message the source raises. -/
inductive Err where
  | invalidTolerance
  | invalidMaxIterations
  | wrongOrder
  | illFormed
  | maxIterationsReached
  | linearNoSolution
  | quadraticNoSolution
  | cubicNoSolution
  | laguerreNotConverged
  | newtonNotConverged
  | rootNotFinite
deriving DecidableEq

deriving instance DecidableEq for Except

/-- The numeric collaborators the source calls but does not implement:
`csqrt` is `std::sqrt` on `std::complex`, `ccbrt` is the `cbrt` lambda
`std::pow(x, 1.0/3.0)`, `sqrt3` the value of `std::sqrt(3.0)`, `rand i` the
`dist(mt)` draw made at iteration `i` of the Laguerre loop, and `isfin`
`std::isfinite` on one real component. -/
structure Oracles where
  csqrt : CC → CC
  ccbrt : CC → CC
  sqrt3 : ℚ
  rand : ℕ → ℚ
  isfin : ℚ → Bool

/-- The strict comparator `sortingFunc` of `impl::sortRoots` (part_000 line
96): `abs(root2.real() - root1.real()) < toleranceSqrt ? root1.imag() <
root2.imag() : root1.real() < root2.real()`, with `|d| < √tol` embedded as
`d^2 < tol`. -/
def sortingFunc (tol : ℚ) (r1 r2 : CC) : Prop :=
  if (r2.re - r1.re) ^ 2 < tol then r1.im < r2.im else r1.re < r2.re

instance (tol : ℚ) (r1 r2 : CC) : Decidable (sortingFunc tol r1 r2) := by
  unfold sortingFunc
  infer_instance

/-- The may-precede relation induced by `sortingFunc`: `a` may come before
`b` exactly when the comparator does not demand `b` before `a`.  A sorted
output of `std::sort` has every neighbouring pair in this relation. -/
def rootLE (tol : ℚ) (a b : CC) : Prop := ¬ sortingFunc tol b a

instance (tol : ℚ) (a b : CC) : Decidable (rootLE tol a b) := by
  unfold rootLE
  infer_instance

/-- `impl::sortRoots` instantiated at complex `RT` (part_000 lines 75–111):
validate the tolerance (throwing is embedded as `Except.error`), sort with
`sortingFunc` — the embedding realises `std::sort` as insertion sort — and
return all the roots. -/
def sortRootsC (roots : List CC) (tol : ℚ) : Except Err (List CC) :=
  if tol ≤ 0 then .error .invalidTolerance
  else .ok (List.insertionSort (rootLE tol) roots)

/-- `impl::sortRoots` instantiated at real `RT`: validate the tolerance,
erase every root with `|imag| ≥ √tol` (embedded as `im^2 ≥ tol`), sort the
remainder, and return the real parts. -/
def sortRootsR (roots : List CC) (tol : ℚ) : Except Err (List ℚ) :=
  if tol ≤ 0 then .error .invalidTolerance
  else
    .ok (((List.insertionSort (rootLE tol)
      (roots.filter fun r => decide (r.im ^ 2 < tol)))).map CC.re)

/-- `poly::linear` instantiated at complex `RT`, as `polysolve` calls it
(part_000 lines 133–159): tolerance and order validation, then the single
root `-coefficients.front() / coefficients.back()`, sorted. -/
def linear (p : Poly) (tol : ℚ) : Except Err (List CC) :=
  if tol ≤ 0 then .error .invalidTolerance
  else if order p ≠ 1 then .error .wrongOrder
  else sortRootsC [-(p.headD 0 / p.getLastD 0)] tol

/-- The local `q` of `poly::quadratic` (part_000 lines 212–216):
`discriminant` is already the square root `√(b²−4ac)` (the source's own
name for it), `sqrt_component = conj(b)·√D` selects the sign, and
`q = −½(b + sign·√D)`. -/
def quadQ (O : Oracles) (p : Poly) : CC :=
  let b := p.getD 1 0
  let discriminant := O.csqrt (b * b - CC.ofRat 4 * (p.getD 2 0) * (p.getD 0 0))
  let q := -CC.ofRat (1 / 2) *
    (b + if 0 ≤ (CC.conj b * discriminant).re then discriminant else -discriminant)
  q

/-- `poly::quadratic` at complex `RT` (part_000 lines 187–230): the stable
quadratic formula; the degeneracy check `|q| < tol ∨ |a| < tol` reports
`illFormed`, and otherwise the roots `q/a` and `c/q` are sorted and
returned (`a = coeffs[2]`, `c = coeffs[0]`). -/
def quadratic (O : Oracles) (p : Poly) (tol : ℚ) : Except Err (List CC) :=
  if tol ≤ 0 then .error .invalidTolerance
  else if order p ≠ 2 then .error .wrongOrder
  else if CC.normSq (quadQ O p) < tol ^ 2 ∨ CC.normSq (p.getD 2 0) < tol ^ 2 then
    .error .illFormed
  else sortRootsC [quadQ O p / p.getD 2 0, p.getD 0 0 / quadQ O p] tol

/-- The three roots built by `poly::cubic` (part_000 lines 275–290):
normalise by the leading coefficient, form `Q` and `R`, choose the square
root's sign by the conjugate test, take `A` as minus the principal cube
root, `B = Q/A` (or `0` when `|A| = 0`), and combine through the complex
cube-root triple (`iu` is the literal `1.0i`). -/
def cubicRoots (O : Oracles) (p : Poly) : List CC :=
  let coeff := p.map fun e => e / p.getLastD 0
  let a := coeff.getD 2 0
  let b := coeff.getD 1 0
  let c := coeff.getD 0 0
  let Q := (a * a - CC.ofRat 3 * b) / CC.ofRat 9
  let R := (CC.ofRat 2 * a * a * a - CC.ofRat 9 * a * b + CC.ofRat 27 * c) / CC.ofRat 54
  let s := O.csqrt (R * R - Q * Q * Q)
  let A := -O.ccbrt (R + if 0 ≤ (CC.conj R * s).re then s else -s)
  let B := if CC.normSq A = 0 then 0 else Q / A
  let iu : CC := ⟨0, 1⟩
  [A + B - a / CC.ofRat 3,
   -CC.ofRat (1 / 2) * (A + B) - a / CC.ofRat 3 +
     CC.ofRat (1 / 2) * CC.ofRat O.sqrt3 * (A - B) * iu,
   -CC.ofRat (1 / 2) * (A + B) - a / CC.ofRat 3 -
     CC.ofRat (1 / 2) * CC.ofRat O.sqrt3 * (A - B) * iu]

/-- `poly::cubic` at complex `RT` (part_000 lines 254–295): validation,
then the three analytic roots, sorted; there is no failure path beyond the
tolerance and order validation. -/
def cubic (O : Oracles) (p : Poly) (tol : ℚ) : Except Err (List CC) :=
  if tol ≤ 0 then .error .invalidTolerance
  else if order p ≠ 3 then .error .wrongOrder
  else sortRootsC (cubicRoots O p) tol

/-- The `laguerrestep` lambda (part_000 lines 344–348): `none` when
`|G + temp| < nxx::EPS`, otherwise `3 / (G ± temp)` with the
larger-magnitude denominator, where `temp = √(2(3H − G²))`. -/
def laguerrestep (O : Oracles) (G H : CC) : Option CC :=
  let temp := O.csqrt (CC.ofRat 2 * (CC.ofRat 3 * H - G * G))
  if CC.normSq (G + temp) < EPS ^ 2 then none
  else some (CC.ofRat 3 /
    (if CC.normSq (G + temp) > CC.normSq (G - temp) then G + temp else G - temp))

/-- Lines 377–383 of the Laguerre loop body: `G = p'(root)/p(root)`,
`H = G² − p''(root)/p(root)`, the `laguerrestep`, and the
`if (!step) step = OPT(0.1)` fallback — the step the iteration applies,
as a function of the polynomial `p` and its derivative objects `d1`, `d2`. -/
def laguerreStepWith (O : Oracles) (p d1 d2 : Poly) (root : CC) : CC :=
  let G := evalPoly d1 root / evalPoly p root
  let H := G * G - evalPoly d2 root / evalPoly p root
  (laguerrestep O G H).getD (CC.ofRat (1 / 10))

/-- The step applied by `laguerre` itself, whose `d1poly`, `d2poly` are the
first and second derivatives of its input polynomial. -/
def laguerreStepAt (O : Oracles) (p : Poly) (root : CC) : CC :=
  laguerreStepWith O p (derivativeOf p) (derivativeOf (derivativeOf p)) root

/-- The `while (true)` loop of `laguerre` (part_000 lines 370–396) from
iteration counter `i`, with `fuel = max_iterations − i` passes remaining:
at `fuel = 0` the source's `i >= max_iterations` guard reports failure;
otherwise one pass checks convergence of the residual, computes the step
(`laguerreStepWith`, the source's local `step`), stops when the step is
below tolerance, replaces the step by the random draw every 10th iteration
(`*step = dist(mt)`, line 389), and recurses on the updated root. -/
def laguerreLoop (O : Oracles) (p d1 d2 : Poly) (tol : ℚ) : ℕ → ℕ → CC → Except Err CC
  | _, 0, _ => .error .maxIterationsReached
  | i, fuel + 1, root =>
    if CC.normSq (evalPoly p root) < tol ^ 2 then .ok root
    else if CC.normSq (laguerreStepWith O p d1 d2 root) < tol ^ 2 then .ok root
    else laguerreLoop O p d1 d2 tol (i + 1) fuel
      (root - (if i % 10 = 0 then CC.ofRat (O.rand i) else laguerreStepWith O p d1 d2 root))

/-- `poly::laguerre` (part_000 lines 317–400): the three validations, the
early return on a converged guess, then the iteration loop started at
counter `0` with `max_iterations` passes of fuel and the polynomial's first
and second derivative function objects. -/
def laguerre (O : Oracles) (p : Poly) (guess : CC) (tol : ℚ) (maxIter : ℤ) : Except Err CC :=
  if tol ≤ 0 then .error .invalidTolerance
  else if maxIter < 1 then .error .invalidMaxIterations
  else if order p ≤ 3 then .error .wrongOrder
  else if CC.normSq (evalPoly p guess) < tol ^ 2 then .ok guess
  else laguerreLoop O p (derivativeOf p) (derivativeOf (derivativeOf p)) tol 0 maxIter.toNat guess

/-- The loop of the `newt` lambda of `polysolve` (part_000 lines 461–481):
Newton iteration on `f` with derivative object `df`; `none` when the
iteration budget runs out (`i >= max_iterations`) or the derivative
magnitude falls under `nxx::EPS`; otherwise step, update, and return the
updated estimate once value and step are below tolerance component-wise. -/
def newtLoop (f df : Poly) (tol : ℚ) : ℕ → CC → Option CC
  | 0, _ => none
  | fuel + 1, x =>
    if CC.normSq (evalPoly df x) < EPS ^ 2 then none
    else
      let dx := evalPoly f x / evalPoly df x
      let y := x - dx
      let fval := evalPoly f y
      if |fval.re| < tol ∧ |fval.im| < tol ∧ |dx.re| < tol ∧ |dx.im| < tol then some y
      else newtLoop f df tol fuel y

/-- The `newt` lambda of `polysolve`: Newton polishing of an estimate `x`
against the polynomial `f`, with `max_iterations` passes of fuel. -/
def newt (f : Poly) (tol : ℚ) (maxIter : ℤ) (x : CC) : Option CC :=
  newtLoop f (derivativeOf f) tol maxIter.toNat x

/-- The mutable state of `polysolve`'s deflation loop: the deflating working
`polynomial`, the retained copy of the `original`, and the roots collected
so far. -/
structure SolveState where
  polynomial : Poly
  original : Poly
  roots : List CC
deriving DecidableEq

/-- One pass of the deflation loop (part_000 lines 518–540): extract a root
with `laguerre` seeded at `0` on the working polynomial, polish it with
`newt` against the original, validate that the original's value at the
polished root is finite, then deflate the working polynomial by the linear
factor and append the root.  The source pushes the raw root and then
overwrites `roots.back()` with the polished one; the net effect embedded
here is appending the polished root. -/
def polysolveStep (O : Oracles) (tol : ℚ) (maxIter : ℤ) (s : SolveState) :
    Except Err SolveState :=
  match laguerre O s.polynomial 0 tol maxIter with
  | .error _ => .error .laguerreNotConverged
  | .ok root =>
    match newt s.original tol maxIter root with
    | none => .error .newtonNotConverged
    | some polished =>
      if !(O.isfin (evalPoly s.original polished).re &&
           O.isfin (evalPoly s.original polished).im) then
        .error .rootNotFinite
      else
        .ok ⟨deflate s.polynomial polished, s.original, s.roots ++ [polished]⟩

/-- The tail of `polysolve`'s default branch (part_000 lines 542–549): solve
the residual cubic — called, like all analytic sub-solvers in `polysolve`,
with the library default tolerance `nxx::EPS`, not the caller's — and
append its roots. -/
def residualCubic (O : Oracles) (s : SolveState) : Except Err (List CC) :=
  match cubic O s.polynomial EPS with
  | .error _ => .error .cubicNoSolution
  | .ok cs => .ok (s.roots ++ cs)

/-- The `while (polynomial.order() > 3)` loop of `polysolve` followed by the
residual cubic.  The C++ loop needs exactly `order − 3` passes because every
deflation lowers the order by one (`deflate_length`); the embedding makes
that bound an explicit structural fuel, which `polysolve` passes as the
input's order. -/
def polysolveLoop (O : Oracles) (tol : ℚ) (maxIter : ℤ) : ℕ → SolveState → Except Err (List CC)
  | 0, s => residualCubic O s
  | fuel + 1, s =>
    if 3 < order s.polynomial then
      match polysolveStep O tol maxIter s with
      | .error e => .error e
      | .ok s' => polysolveLoop O tol maxIter fuel s'
    else residualCubic O s

/-- `poly::polysolve` at complex `RT` (part_000 lines 428–555): the three
validations, the working and original copies of the input, the dispatch by
order — `linear`, `quadratic` and `cubic` are invoked with their default
tolerance `nxx::EPS` — the deflation loop for order ≥ 4, and the final sort
with the caller's tolerance. -/
def polysolveC (O : Oracles) (p : Poly) (tol : ℚ) (maxIter : ℤ) : Except Err (List CC) :=
  if tol ≤ 0 then .error .invalidTolerance
  else if maxIter < 1 then .error .invalidMaxIterations
  else if order p < 1 then .error .wrongOrder
  else
    match
      ((match order p with
       | 1 =>
         match linear p EPS with
         | .error _ => .error Err.linearNoSolution
         | .ok rs => .ok rs
       | 2 =>
         match quadratic O p EPS with
         | .error _ => .error Err.quadraticNoSolution
         | .ok rs => .ok rs
       | 3 =>
         match cubic O p EPS with
         | .error _ => .error Err.cubicNoSolution
         | .ok rs => .ok rs
       | _ => polysolveLoop O tol maxIter (order p) ⟨p, p, []⟩) : Except Err (List CC)) with
    | .error e => .error e
    | .ok roots => sortRootsC roots tol

/-- Modelled from the claim's words, for comparison with the source: the
loop variant in which every 10th iteration MULTIPLIES the computed step by
the random scalar (`step *= dist(mt)`) instead of assigning the scalar to
it; everything else is `laguerreLoop` unchanged. -/
def laguerreLoopClaimed (O : Oracles) (p d1 d2 : Poly) (tol : ℚ) :
    ℕ → ℕ → CC → Except Err CC
  | _, 0, _ => .error .maxIterationsReached
  | i, fuel + 1, root =>
    if CC.normSq (evalPoly p root) < tol ^ 2 then .ok root
    else if CC.normSq (laguerreStepWith O p d1 d2 root) < tol ^ 2 then .ok root
    else laguerreLoopClaimed O p d1 d2 tol (i + 1) fuel
      (root - (if i % 10 = 0 then laguerreStepWith O p d1 d2 root * CC.ofRat (O.rand i)
               else laguerreStepWith O p d1 d2 root))

/-- Modelled from the claim's words: `laguerre` built on the multiplying
loop variant `laguerreLoopClaimed`, with the same validations and early
return. -/
def laguerreClaimed (O : Oracles) (p : Poly) (guess : CC) (tol : ℚ) (maxIter : ℤ) :
    Except Err CC :=
  if tol ≤ 0 then .error .invalidTolerance
  else if maxIter < 1 then .error .invalidMaxIterations
  else if order p ≤ 3 then .error .wrongOrder
  else if CC.normSq (evalPoly p guess) < tol ^ 2 then .ok guess
  else laguerreLoopClaimed O p (derivativeOf p) (derivativeOf (derivativeOf p)) tol 0
    maxIter.toNat guess

/-- The step relation of `polysolve`'s deflation loop iterated `n` times:
the reachable states of the loop, used to state that the retained original
polynomial is never changed while the loop is in progress. -/
def stepIter (O : Oracles) (tol : ℚ) (maxIter : ℤ) : ℕ → SolveState → Except Err SolveState
  | 0, s => .ok s
  | n + 1, s =>
    match polysolveStep O tol maxIter s with
    | .error e => .error e
    | .ok s' => stepIter O tol maxIter n s'

/-- Oracle instantiation for concrete runs: square and cube roots that
return `0`, `sqrt3 = 0`, every random draw `1`, everything reported
finite. -/
def oraclesW : Oracles := ⟨fun _ => 0, fun _ => 0, 0, fun _ => 1, fun _ => true⟩

/-- Oracle whose `isfinite` always reports false: drives the
non-finite-root rejection path. -/
def oraclesNF : Oracles := ⟨fun _ => 0, fun _ => 0, 0, fun _ => 1, fun _ => false⟩

/-- Oracle for the quadratic example `x² + 1`: the square root of `−4` is
`2i`. -/
def oraclesQ : Oracles :=
  ⟨fun z => if z = ⟨-4, 0⟩ then ⟨0, 2⟩ else 0, fun _ => 0, 0, fun _ => 1, fun _ => true⟩

/-- The quartic `(x−1)(x−2)(x−3)(x−4) = 24 − 50x + 35x² − 10x³ + x⁴`,
constant term first. -/
def pQuartW : Poly := [⟨24, 0⟩, ⟨-50, 0⟩, ⟨35, 0⟩, ⟨-10, 0⟩, ⟨1, 0⟩]

/-- The quartic `x⁴`. -/
def pMono4 : Poly := [0, 0, 0, 0, 1]

/-- First derivative of `x⁴`. -/
def pMono4d1 : Poly := derivativeOf pMono4

/-- Second derivative of `x⁴`. -/
def pMono4d2 : Poly := derivativeOf pMono4d1

/-- The quadratic `x² + 1`. -/
def pQuadW : Poly := [1, 0, 1]

/-- The deflation divides out exactly the linear factor `(x − r)`: for every
polynomial and every point, `p(x) = (x − r)·q(x) + p(r)` where `q` is the
deflated polynomial (so the remainder is the value of `p` at the root). -/
theorem deflate_spec (p : Poly) (r x : CC) :
    evalPoly p x = (x - r) * evalPoly (deflate p r) x + evalPoly p r := by
  cases hrev : p.reverse with
  | nil =>
    have hp : p = [] := by simpa using congrArg List.reverse hrev
    simp [hp, deflate, evalPoly]
  | cons c cs =>
    have h0 : ∀ (y d : CC), (0 : CC) * y + d = d := by
      intro y d
      ring
    have hq : deflate p r = (hornerQuot r c cs).1.reverse := by
      unfold deflate
      rw [hrev]
    have hqev : evalPoly (deflate p r) x = evalRevAux x 0 (hornerQuot r c cs).1 := by
      rw [hq, evalPoly_reverse, List.reverse_reverse]
    rw [evalPoly_reverse p x, evalPoly_reverse p r, hrev, hqev, evalRevAux_cons,
      evalRevAux_cons, h0, h0, hornerQuot_spec r x cs c, hornerQuot_spec r r cs c]
    ring

theorem order_deflate (p : Poly) (r : CC) : order (deflate p r) = order p - 1 := by
  simp [order, deflate_length]

/-- The may-precede relation is total: the comparator never demands both
`a` before `b` and `b` before `a`, because its branch condition is
symmetric in the two roots. -/
theorem rootLE_total (tol : ℚ) (a b : CC) : rootLE tol a b ∨ rootLE tol b a := by
  unfold rootLE sortingFunc
  have hsym : (a.re - b.re) ^ 2 = (b.re - a.re) ^ 2 := by ring
  by_cases h : (a.re - b.re) ^ 2 < tol
  · rw [if_pos h, if_pos (by rw [← hsym]; exact h)]
    rcases le_total a.im b.im with h1 | h1
    · exact Or.inl (not_lt.mpr h1)
    · exact Or.inr (not_lt.mpr h1)
  · rw [if_neg h, if_neg (by rw [← hsym]; exact h)]
    rcases le_total a.re b.re with h1 | h1
    · exact Or.inl (not_lt.mpr h1)
    · exact Or.inr (not_lt.mpr h1)

/-- The ordering rule spelled out: `a` may precede `b` exactly when their
real parts differ by less than `√tolerance` (squared form) and the
imaginary parts are ascending, or the real parts are ascending. -/
theorem rootLE_iff (tol : ℚ) (a b : CC) :
    rootLE tol a b ↔
      (if (b.re - a.re) ^ 2 < tol then a.im ≤ b.im else a.re ≤ b.re) := by
  unfold rootLE sortingFunc
  have hsym : (a.re - b.re) ^ 2 = (b.re - a.re) ^ 2 := by ring
  by_cases h : (b.re - a.re) ^ 2 < tol
  · rw [if_pos h, if_pos (by rw [hsym]; exact h)]
    exact not_lt
  · rw [if_neg h, if_neg (by rw [hsym]; exact h)]
    exact not_lt

/-- Inserting into a list whose neighbours are ordered keeps neighbours
ordered, for any total relation (the comparator of `sortRoots` is total but
not transitive, so this neighbour form is the sortedness `std::sort` can
guarantee). -/
theorem chain'_orderedInsert {α : Type} (r : α → α → Prop) [DecidableRel r]
    (htot : ∀ a b, r a b ∨ r b a) (a : α) :
    ∀ l : List α, l.Chain' r → (l.orderedInsert r a).Chain' r
  | [], _ => by simp
  | b :: l, h => by
    by_cases hab : r a b
    · simp only [List.orderedInsert, if_pos hab]
      exact List.chain'_cons.mpr ⟨hab, h⟩
    · have hba : r b a := (htot a b).resolve_left hab
      simp only [List.orderedInsert, if_neg hab]
      cases l with
      | nil =>
        simp only [List.orderedInsert]
        exact List.chain'_cons.mpr ⟨hba, List.chain'_singleton a⟩
      | cons c l' =>
        have hbc : r b c := (List.chain'_cons.mp h).1
        have htl : (c :: l').Chain' r := (List.chain'_cons.mp h).2
        have ih := chain'_orderedInsert r htot a (c :: l') htl
        by_cases hac : r a c
        · simp only [List.orderedInsert, if_pos hac]
          exact List.chain'_cons.mpr ⟨hba, List.chain'_cons.mpr ⟨hac, htl⟩⟩
        · simp only [List.orderedInsert, if_neg hac]
          simp only [List.orderedInsert, if_neg hac] at ih
          exact List.chain'_cons.mpr ⟨hbc, ih⟩

/-- Insertion sort under a total relation leaves every pair of neighbours
ordered. -/
theorem chain'_insertionSort {α : Type} (r : α → α → Prop) [DecidableRel r]
    (htot : ∀ a b, r a b ∨ r b a) :
    ∀ l : List α, (List.insertionSort r l).Chain' r
  | [] => by simp
  | b :: l => by
    simp only [List.insertionSort]
    exact chain'_orderedInsert r htot b _ (chain'_insertionSort r htot l)

theorem sortRootsC_of_pos (roots : List CC) {tol : ℚ} (h : 0 < tol) :
    sortRootsC roots tol = .ok (List.insertionSort (rootLE tol) roots) := by
  unfold sortRootsC
  rw [if_neg (not_le.mpr h)]

theorem sortRootsC_eq_ok {roots sorted : List CC} {tol : ℚ}
    (h : sortRootsC roots tol = .ok sorted) :
    0 < tol ∧ sorted = List.insertionSort (rootLE tol) roots := by
  unfold sortRootsC at h
  split_ifs at h with ht
  exact ⟨not_le.mp ht, (Except.ok.inj h).symm⟩

theorem sortRootsC_ok_perm {roots sorted : List CC} {tol : ℚ}
    (h : sortRootsC roots tol = .ok sorted) : sorted.Perm roots := by
  obtain ⟨ht, rfl⟩ := sortRootsC_eq_ok h
  exact List.perm_insertionSort _ _

theorem cubicRoots_length (O : Oracles) (p : Poly) : (cubicRoots O p).length = 3 := by
  simp [cubicRoots]

theorem cubic_eq_ok {O : Oracles} {p : Poly} {tol : ℚ} {cs : List CC}
    (h : cubic O p tol = .ok cs) :
    0 < tol ∧ order p = 3 ∧ cs.length = 3 := by
  unfold cubic at h
  split_ifs at h with h1 h2
  obtain ⟨ht, rfl⟩ := sortRootsC_eq_ok h
  refine ⟨ht, not_ne_iff.mp h2, ?_⟩
  rw [List.length_insertionSort, cubicRoots_length]

theorem quadratic_eq_ok {O : Oracles} {p : Poly} {tol : ℚ} {rs : List CC}
    (h : quadratic O p tol = .ok rs) :
    0 < tol ∧ order p = 2 ∧ rs.length = 2 := by
  unfold quadratic at h
  split_ifs at h with h1 h2 h3
  obtain ⟨ht, rfl⟩ := sortRootsC_eq_ok h
  exact ⟨ht, not_ne_iff.mp h2, by rw [List.length_insertionSort]; rfl⟩

theorem linear_eq_ok {p : Poly} {tol : ℚ} {rs : List CC}
    (h : linear p tol = .ok rs) :
    0 < tol ∧ order p = 1 ∧ rs.length = 1 := by
  unfold linear at h
  split_ifs at h with h1 h2
  obtain ⟨ht, rfl⟩ := sortRootsC_eq_ok h
  exact ⟨ht, not_ne_iff.mp h2, by rw [List.length_insertionSort]; rfl⟩

/-- Inversion of one successful pass of the deflation loop: it extracted a
root by Laguerre iteration on the working polynomial, polished it by Newton
iteration against the original, found the original's value at the polished
root finite, and produced the deflated working polynomial with the polished
root appended — and the original traveled through unchanged. -/
theorem polysolveStep_eq_ok {O : Oracles} {tol : ℚ} {maxIter : ℤ} {s s' : SolveState}
    (h : polysolveStep O tol maxIter s = .ok s') :
    ∃ root polished,
      laguerre O s.polynomial 0 tol maxIter = .ok root ∧
      newt s.original tol maxIter root = some polished ∧
      (O.isfin (evalPoly s.original polished).re &&
        O.isfin (evalPoly s.original polished).im) = true ∧
      s' = ⟨deflate s.polynomial polished, s.original, s.roots ++ [polished]⟩ := by
  unfold polysolveStep at h
  split at h
  · exact absurd h (by simp)
  · next root heq =>
    split at h
    · exact absurd h (by simp)
    · next polished heq2 =>
      split_ifs at h with hfin
      refine ⟨root, polished, heq, heq2, ?_, (Except.ok.inj h).symm⟩
      simpa using hfin

/-- A successful run of the deflation loop decomposes: the result appends to
the roots already collected first the iteratively extracted roots — one per
pass, so exactly `order − 3` of them — and then the three roots of the
residual cubic, which the `cubic` solver accepted (hence the residual has
order exactly 3). -/
theorem polysolveLoop_ok_decomp (O : Oracles) (tol : ℚ) (maxIter : ℤ) :
    ∀ (fuel : ℕ) (s : SolveState) (res : List CC),
      polysolveLoop O tol maxIter fuel s = .ok res →
      ∃ iter cub residual,
        res = s.roots ++ iter ++ cub ∧
        order s.polynomial = iter.length + 3 ∧
        order residual = 3 ∧
        cubic O residual EPS = .ok cub ∧
        cub.length = 3
  | 0, s, res => by
    intro h
    unfold polysolveLoop residualCubic at h
    split at h
    · exact absurd h (by simp)
    · next cs heq =>
      obtain ⟨ht, h3, hlen⟩ := cubic_eq_ok heq
      refine ⟨[], cs, s.polynomial, ?_, by simpa using h3, h3, heq, hlen⟩
      simpa using (Except.ok.inj h).symm
  | fuel + 1, s, res => by
    intro h
    unfold polysolveLoop at h
    split_ifs at h with hord
    · split at h
      · exact absurd h (by simp)
      · next s' heq =>
        obtain ⟨iter', cub, residual, hres, hordEq, h3, hcub, hlen⟩ :=
          polysolveLoop_ok_decomp O tol maxIter fuel s' res h
        obtain ⟨root, polished, hlag, hnewt, hfin, hs'⟩ := polysolveStep_eq_ok heq
        refine ⟨polished :: iter', cub, residual, ?_, ?_, h3, hcub, hlen⟩
        · rw [hres, hs']
          simp
        · have hdrop : order s'.polynomial = order s.polynomial - 1 := by
            rw [hs']
            simpa using order_deflate s.polynomial polished
          simp only [List.length_cons]
          omega
    · unfold residualCubic at h
      split at h
      · exact absurd h (by simp)
      · next cs heq =>
        obtain ⟨ht, h3, hlen⟩ := cubic_eq_ok heq
        refine ⟨[], cs, s.polynomial, ?_, by simpa using h3, h3, heq, hlen⟩
        simpa using (Except.ok.inj h).symm

/-- Each pass of the deflation loop conserves the retained original
polynomial. -/
theorem polysolveStep_original {O : Oracles} {tol : ℚ} {maxIter : ℤ} {s s' : SolveState}
    (h : polysolveStep O tol maxIter s = .ok s') : s'.original = s.original := by
  obtain ⟨root, polished, _, _, _, rfl⟩ := polysolveStep_eq_ok h
  rfl

/-- Along any number of passes of the step relation, the original polynomial
is the one the loop started from: it is never mutated while the deflation
loop is in progress. -/
theorem stepIter_original (O : Oracles) (tol : ℚ) (maxIter : ℤ) :
    ∀ (n : ℕ) (s s' : SolveState),
      stepIter O tol maxIter n s = .ok s' → s'.original = s.original
  | 0, s, s' => by
    intro h
    unfold stepIter at h
    exact congrArg SolveState.original (Except.ok.inj h).symm
  | n + 1, s, s' => by
    intro h
    unfold stepIter at h
    split at h
    · exact absurd h (by simp)
    · next s1 heq =>
      rw [stepIter_original O tol maxIter n s1 s' h, polysolveStep_original heq]

/-- Every run of the Laguerre loop either reports that the iteration budget
is exhausted or returns a root at which the residual or the computed step
(after the `0.1` fallback) is below tolerance. -/
theorem laguerreLoop_cases (O : Oracles) (p d1 d2 : Poly) (tol : ℚ) :
    ∀ (fuel i : ℕ) (root : CC),
      laguerreLoop O p d1 d2 tol i fuel root = .error .maxIterationsReached ∨
      ∃ r, laguerreLoop O p d1 d2 tol i fuel root = .ok r ∧
        (CC.normSq (evalPoly p r) < tol ^ 2 ∨
         CC.normSq (laguerreStepWith O p d1 d2 r) < tol ^ 2)
  | 0, i, root => Or.inl rfl
  | fuel + 1, i, root => by
    by_cases hres : CC.normSq (evalPoly p root) < tol ^ 2
    · refine Or.inr ⟨root, ?_, Or.inl hres⟩
      unfold laguerreLoop
      rw [if_pos hres]
    · by_cases hstep : CC.normSq (laguerreStepWith O p d1 d2 root) < tol ^ 2
      · refine Or.inr ⟨root, ?_, Or.inr hstep⟩
        unfold laguerreLoop
        rw [if_neg hres, if_pos hstep]
      · rcases laguerreLoop_cases O p d1 d2 tol fuel (i + 1)
          (root - (if i % 10 = 0 then CC.ofRat (O.rand i) else laguerreStepWith O p d1 d2 root))
          with h1 | ⟨r, hr, hconv⟩
        · left
          unfold laguerreLoop
          rw [if_neg hres, if_neg hstep]
          exact h1
        · refine Or.inr ⟨r, ?_, hconv⟩
          unfold laguerreLoop
          rw [if_neg hres, if_neg hstep]
          exact hr

theorem sortRootsC_ok_length {roots sorted : List CC} {tol : ℚ}
    (h : sortRootsC roots tol = .ok sorted) : sorted.length = roots.length :=
  (sortRootsC_ok_perm h).length_eq

/-- A pass whose polished root the finiteness test rejects fails the whole
pass with the `rootNotFinite` error. -/
theorem polysolveStep_notFinite (O : Oracles) (tol : ℚ) (maxIter : ℤ) (s : SolveState)
    {root polished : CC}
    (hlag : laguerre O s.polynomial 0 tol maxIter = .ok root)
    (hnewt : newt s.original tol maxIter root = some polished)
    (hfin : O.isfin (evalPoly s.original polished).re = false ∨
            O.isfin (evalPoly s.original polished).im = false) :
    polysolveStep O tol maxIter s = .error .rootNotFinite := by
  unfold polysolveStep
  simp only [hlag, hnewt]
  rcases hfin with h | h <;> simp [h]

/-- The `order ≥ 4` default branch of `polysolve`'s dispatch: the call
reduces to the deflation loop on the two copies of the input followed by
the final sort. -/
theorem polysolveC_dispatch_default (O : Oracles) (p : Poly) (tol : ℚ) (maxIter : ℤ)
    (ht : 0 < tol) (hm : 1 ≤ maxIter) (ho : 4 ≤ order p) :
    polysolveC O p tol maxIter =
      match polysolveLoop O tol maxIter (order p) ⟨p, p, []⟩ with
      | .error e => .error e
      | .ok roots => sortRootsC roots tol := by
  unfold polysolveC
  rw [if_neg (not_le.mpr ht), if_neg (not_lt.mpr hm), if_neg (by omega)]
  obtain ⟨k, hk⟩ : ∃ k, order p = k + 4 := ⟨order p - 4, by omega⟩
  rw [hk]
  rfl

theorem polysolveC_order1 (O : Oracles) (p : Poly) (tol : ℚ) (maxIter : ℤ)
    (ht : 0 < tol) (hm : 1 ≤ maxIter) (ho : order p = 1) :
    polysolveC O p tol maxIter =
      match linear p EPS with
      | .error _ => .error Err.linearNoSolution
      | .ok rs => sortRootsC rs tol := by
  unfold polysolveC
  rw [if_neg (not_le.mpr ht), if_neg (not_lt.mpr hm), if_neg (by omega), ho]
  cases hl : linear p EPS <;> rfl

theorem polysolveC_order2 (O : Oracles) (p : Poly) (tol : ℚ) (maxIter : ℤ)
    (ht : 0 < tol) (hm : 1 ≤ maxIter) (ho : order p = 2) :
    polysolveC O p tol maxIter =
      match quadratic O p EPS with
      | .error _ => .error Err.quadraticNoSolution
      | .ok rs => sortRootsC rs tol := by
  unfold polysolveC
  rw [if_neg (not_le.mpr ht), if_neg (not_lt.mpr hm), if_neg (by omega), ho]
  cases hl : quadratic O p EPS <;> rfl

theorem polysolveC_order3 (O : Oracles) (p : Poly) (tol : ℚ) (maxIter : ℤ)
    (ht : 0 < tol) (hm : 1 ≤ maxIter) (ho : order p = 3) :
    polysolveC O p tol maxIter =
      match cubic O p EPS with
      | .error _ => .error Err.cubicNoSolution
      | .ok rs => sortRootsC rs tol := by
  unfold polysolveC
  rw [if_neg (not_le.mpr ht), if_neg (not_lt.mpr hm), if_neg (by omega), ho]
  cases hl : cubic O p EPS <;> rfl

/-- Inversion of a successful `polysolve` call: the returned list is the
caller-tolerance sort of a root list produced by the stage the input's
order dispatched to. -/
theorem polysolveC_ok_inv (O : Oracles) (p : Poly) (tol : ℚ) (maxIter : ℤ) {res : List CC}
    (hok : polysolveC O p tol maxIter = .ok res) :
    ∃ roots, sortRootsC roots tol = .ok res ∧ 0 < tol ∧ 1 ≤ maxIter ∧ 1 ≤ order p ∧
      ((order p = 1 ∧ linear p EPS = .ok roots) ∨
       (order p = 2 ∧ quadratic O p EPS = .ok roots) ∨
       (order p = 3 ∧ cubic O p EPS = .ok roots) ∨
       (4 ≤ order p ∧ polysolveLoop O tol maxIter (order p) ⟨p, p, []⟩ = .ok roots)) := by
  unfold polysolveC at hok
  split_ifs at hok with h1 h2 h3
  split at hok
  · exact absurd hok (by simp)
  · next roots heq =>
    refine ⟨roots, hok, not_le.mp h1, ?_, ?_, ?_⟩
    · exact not_lt.mp h2
    · exact not_lt.mp h3
    split at heq
    · next ho =>
      left
      refine ⟨ho, ?_⟩
      split at heq
      · exact absurd heq (by simp)
      · next rs hl =>
        rw [hl, Except.ok.inj heq]
    · next ho =>
      right
      left
      refine ⟨ho, ?_⟩
      split at heq
      · exact absurd heq (by simp)
      · next rs hl =>
        rw [hl, Except.ok.inj heq]
    · next ho =>
      right
      right
      left
      refine ⟨ho, ?_⟩
      split at heq
      · exact absurd heq (by simp)
      · next rs hl =>
        rw [hl, Except.ok.inj heq]
    · next m hn1 hn2 hn3 =>
      right
      right
      right
      simp only [imp_false] at hn1 hn2 hn3
      exact ⟨by omega, heq⟩

/-- C5: for every input, calling `polysolve` or `laguerre` with tolerance
≤ 0 or with max-iterations < 1 yields the configuration error — reported by
the validation prologue before any root computation, never a computed
(possibly wrong) root set — and `polysolve` likewise reports a
configuration error for an input polynomial of order < 1. -/
theorem claimFive (O : Oracles) (p : Poly) (guess : CC) (tol : ℚ) (maxIter : ℤ) :
    (tol ≤ 0 →
      laguerre O p guess tol maxIter = .error .invalidTolerance ∧
      polysolveC O p tol maxIter = .error .invalidTolerance) ∧
    (0 < tol → maxIter < 1 →
      laguerre O p guess tol maxIter = .error .invalidMaxIterations ∧
      polysolveC O p tol maxIter = .error .invalidMaxIterations) ∧
    (0 < tol → 1 ≤ maxIter → order p < 1 →
      polysolveC O p tol maxIter = .error .wrongOrder) := by
  refine ⟨fun ht => ⟨?_, ?_⟩, fun ht hm => ⟨?_, ?_⟩, fun ht hm ho => ?_⟩
  · unfold laguerre
    rw [if_pos ht]
  · unfold polysolveC
    rw [if_pos ht]
  · unfold laguerre
    rw [if_neg (not_le.mpr ht), if_pos hm]
  · unfold polysolveC
    rw [if_neg (not_le.mpr ht), if_pos hm]
  · unfold polysolveC
    rw [if_neg (not_le.mpr ht), if_neg (not_lt.mpr hm), if_pos ho]

theorem claimFive_witness :
    polysolveC oraclesW pQuartW (-1) 5 = .error .invalidTolerance ∧
    laguerre oraclesW pQuartW 0 1 0 = .error .invalidMaxIterations ∧
    polysolveC oraclesW [1] 1 5 = .error .wrongOrder :=
  ⟨((claimFive oraclesW pQuartW 0 (-1) 5).1 (by decide)).2,
   ((claimFive oraclesW pQuartW 0 1 0).2.1 (by decide) (by decide)).1,
   (claimFive oraclesW [1] 0 1 5).2.2 (by decide) (by decide) (by decide)⟩

/-- C3: the root classifier/sorter.  The ordering rule between two roots is
by imaginary part ascending when their real parts differ by less than
`√tolerance` (squared comparison) and by real part ascending otherwise
(`rootLE`, the neighbour ordering the comparator induces); a complex-output
request sorts without dropping any root; a real-output request first
discards every root with `|imag| ≥ √tolerance` and returns the real parts
of the sorted remainder; and on the roots `±i` of `x² + 1` a real request
yields the empty set while a complex request yields `{−i, +i}`. -/
theorem claimThree :
    (∀ (tol : ℚ) (a b : CC), rootLE tol a b ↔
      (if (b.re - a.re) ^ 2 < tol then a.im ≤ b.im else a.re ≤ b.re)) ∧
    (∀ (roots : List CC) (tol : ℚ), 0 < tol → roots ≠ [] →
      ∃ sorted, sortRootsC roots tol = .ok sorted ∧ sorted.Perm roots ∧
        List.Chain' (rootLE tol) sorted) ∧
    (∀ (roots : List CC) (tol : ℚ), 0 < tol →
      ∃ kept, sortRootsR roots tol = .ok (kept.map CC.re) ∧
        kept.Perm (roots.filter fun r => decide (r.im ^ 2 < tol)) ∧
        List.Chain' (rootLE tol) kept ∧ ∀ r ∈ kept, r.im ^ 2 < tol) ∧
    (sortRootsR [⟨0, 1⟩, ⟨0, -1⟩] EPS = .ok [] ∧
     sortRootsC [⟨0, 1⟩, ⟨0, -1⟩] EPS = .ok [⟨0, -1⟩, ⟨0, 1⟩]) := by
  refine ⟨rootLE_iff, fun roots tol ht hne => ?_, fun roots tol ht => ?_, ?_, ?_⟩
  · exact ⟨_, sortRootsC_of_pos roots ht, List.perm_insertionSort _ _,
      chain'_insertionSort _ (rootLE_total tol) _⟩
  · refine ⟨List.insertionSort (rootLE tol) (roots.filter fun r => decide (r.im ^ 2 < tol)),
      ?_, List.perm_insertionSort _ _, chain'_insertionSort _ (rootLE_total tol) _,
      fun r hr => ?_⟩
    · unfold sortRootsR
      rw [if_neg (not_le.mpr ht)]
    · have hmem : r ∈ roots.filter fun r => decide (r.im ^ 2 < tol) :=
        (List.perm_insertionSort _ _).mem_iff.mp hr
      exact of_decide_eq_true (List.mem_filter.mp hmem).2
  · with_unfolding_all decide
  · with_unfolding_all decide

theorem claimThree_witness :
    ∃ sorted, sortRootsC [⟨1, 0⟩, ⟨0, 0⟩] 1 = .ok sorted ∧
      sorted.Perm [⟨1, 0⟩, ⟨0, 0⟩] ∧ List.Chain' (rootLE 1) sorted :=
  claimThree.2.1 [⟨1, 0⟩, ⟨0, 0⟩] 1 (by decide) (by simp)

/-- C6: with a valid configuration, `laguerre` rejects an input of order
≤ 3 before iterating, and on an input of order ≥ 4 it terminates within the
iteration budget — either with a reported `maxIterationsReached` failure or
with a root at which the residual or the computed step is below tolerance;
there is no silent truncation (a returned root always carries one of the
two convergence certificates). -/
theorem claimSix (O : Oracles) (p : Poly) (guess : CC) (tol : ℚ) (maxIter : ℤ)
    (ht : 0 < tol) (hm : 1 ≤ maxIter) :
    (order p ≤ 3 → laguerre O p guess tol maxIter = .error .wrongOrder) ∧
    (4 ≤ order p →
      laguerre O p guess tol maxIter = .error .maxIterationsReached ∨
      ∃ r, laguerre O p guess tol maxIter = .ok r ∧
        (CC.normSq (evalPoly p r) < tol ^ 2 ∨
         CC.normSq (laguerreStepAt O p r) < tol ^ 2)) := by
  constructor
  · intro ho
    unfold laguerre
    rw [if_neg (not_le.mpr ht), if_neg (not_lt.mpr hm), if_pos ho]
  · intro ho
    unfold laguerre
    rw [if_neg (not_le.mpr ht), if_neg (not_lt.mpr hm), if_neg (by omega)]
    by_cases hg : CC.normSq (evalPoly p guess) < tol ^ 2
    · rw [if_pos hg]
      exact Or.inr ⟨guess, rfl, Or.inl hg⟩
    · rw [if_neg hg]
      exact laguerreLoop_cases O p (derivativeOf p) (derivativeOf (derivativeOf p)) tol
        maxIter.toNat 0 guess

theorem claimSix_witness :
    laguerre oraclesW pMono4 1 (1 / 1000) 1 = .error .maxIterationsReached ∨
    ∃ r, laguerre oraclesW pMono4 1 (1 / 1000) 1 = .ok r ∧
      (CC.normSq (evalPoly pMono4 r) < (1 / 1000 : ℚ) ^ 2 ∨
       CC.normSq (laguerreStepAt oraclesW pMono4 r) < (1 / 1000 : ℚ) ^ 2) :=
  (claimSix oraclesW pMono4 1 (1 / 1000) 1 (by with_unfolding_all decide)
    (by decide)).2 (by with_unfolding_all decide)

/-- C7: for an order-2 polynomial and positive tolerance, `quadratic`
computes `q = −½(b + sign·√D)` with `D = b² − 4ac` and the sign of `√D`
chosen so that `conj(b)·√D` has non-negative real part; it reports the
`illFormed` failure when `|q|` or `|a|` falls below tolerance (squared
comparison), and otherwise returns the two roots `q/a` and `c/q` (sorted)
rather than a silent wrong answer. -/
theorem claimSeven (O : Oracles) (p : Poly) (tol : ℚ) (a b c s : CC)
    (ht : 0 < tol) (ho : order p = 2)
    (ha : a = p.getD 2 0) (hb : b = p.getD 1 0) (hc : c = p.getD 0 0)
    (hs : s = O.csqrt (b * b - CC.ofRat 4 * a * c)) :
    quadQ O p = -CC.ofRat (1 / 2) *
      (b + if 0 ≤ (CC.conj b * s).re then s else -s) ∧
    0 ≤ (CC.conj b * (if 0 ≤ (CC.conj b * s).re then s else -s)).re ∧
    (CC.normSq (quadQ O p) < tol ^ 2 ∨ CC.normSq a < tol ^ 2 →
      quadratic O p tol = .error .illFormed) ∧
    (¬ (CC.normSq (quadQ O p) < tol ^ 2 ∨ CC.normSq a < tol ^ 2) →
      ∃ rs, quadratic O p tol = .ok rs ∧ rs.Perm [quadQ O p / a, c / quadQ O p]) := by
  subst ha hb hc hs
  refine ⟨rfl, ?_, fun hd => ?_, fun hd => ?_⟩
  · split_ifs with hsign
    · exact hsign
    · rw [CC.conj_mul_neg_re]
      have := not_le.mp hsign
      linarith
  · unfold quadratic
    rw [if_neg (not_le.mpr ht), if_neg (not_ne_iff.mpr ho), if_pos hd]
  · unfold quadratic
    rw [if_neg (not_le.mpr ht), if_neg (not_ne_iff.mpr ho), if_neg hd]
    exact ⟨_, sortRootsC_of_pos _ ht, List.perm_insertionSort _ _⟩

theorem claimSeven_witness :
    ∃ rs, quadratic oraclesQ pQuadW (1 / 100) = .ok rs ∧
      rs.Perm [quadQ oraclesQ pQuadW / pQuadW.getD 2 0,
        pQuadW.getD 0 0 / quadQ oraclesQ pQuadW] := by
  have h := claimSeven oraclesQ pQuadW (1 / 100) (pQuadW.getD 2 0) (pQuadW.getD 1 0)
    (pQuadW.getD 0 0)
    (oraclesQ.csqrt (pQuadW.getD 1 0 * pQuadW.getD 1 0 -
      CC.ofRat 4 * pQuadW.getD 2 0 * pQuadW.getD 0 0))
    (by with_unfolding_all decide) (by with_unfolding_all decide) rfl rfl rfl rfl
  exact h.2.2.2 (by with_unfolding_all decide)

/-- C2: every root the deflation loop extracts by Laguerre iteration on the
current (possibly deflated) working polynomial is polished by Newton
iteration against the retained original polynomial — not the deflated one —
and the original travels unchanged through every pass of the loop's step
relation; for order ≥ 4 the orchestrator enters the loop with both the
working and the original polynomial equal to the unmodified input. -/
theorem claimTwo :
    (∀ (O : Oracles) (tol : ℚ) (maxIter : ℤ) (s s' : SolveState),
      polysolveStep O tol maxIter s = .ok s' →
      s'.original = s.original ∧
      ∃ root polished,
        laguerre O s.polynomial 0 tol maxIter = .ok root ∧
        newt s.original tol maxIter root = some polished ∧
        s'.roots = s.roots ++ [polished] ∧
        s'.polynomial = deflate s.polynomial polished) ∧
    (∀ (O : Oracles) (tol : ℚ) (maxIter : ℤ) (n : ℕ) (s s' : SolveState),
      stepIter O tol maxIter n s = .ok s' → s'.original = s.original) ∧
    (∀ (O : Oracles) (p : Poly) (tol : ℚ) (maxIter : ℤ),
      0 < tol → 1 ≤ maxIter → 4 ≤ order p →
      polysolveC O p tol maxIter =
        match polysolveLoop O tol maxIter (order p) ⟨p, p, []⟩ with
        | .error e => .error e
        | .ok roots => sortRootsC roots tol) := by
  refine ⟨fun O tol maxIter s s' h => ?_,
    fun O tol maxIter => stepIter_original O tol maxIter,
    fun O p tol maxIter ht hm ho => polysolveC_dispatch_default O p tol maxIter ht hm ho⟩
  obtain ⟨root, polished, hlag, hnewt, hfin, rfl⟩ := polysolveStep_eq_ok h
  exact ⟨rfl, root, polished, hlag, hnewt, rfl, rfl⟩

theorem claimTwo_witness :
    ∃ s', polysolveStep oraclesW 1000 5 ⟨pQuartW, pQuartW, []⟩ = .ok s' ∧
      s'.original = pQuartW := by
  have hsome : (polysolveStep oraclesW 1000 5 ⟨pQuartW, pQuartW, []⟩).toOption.isSome = true := by
    with_unfolding_all decide
  rcases hs : polysolveStep oraclesW 1000 5 ⟨pQuartW, pQuartW, []⟩ with e | s'
  · rw [hs] at hsome
    simp [Except.toOption] at hsome
  · exact ⟨s', rfl, (claimTwo.1 oraclesW 1000 5 _ _ hs).1⟩

/-- C8: in the order ≥ 4 loop, when the polished root fails the finiteness
validation (`std::isfinite` reports false on the real or the imaginary part
of the original polynomial's value there), the whole `polysolve` call
short-circuits with the `rootNotFinite` error instead of a partial root
set.  Stated for the first pass, whose working and original polynomials are
both the input. -/
theorem claimEight (O : Oracles) (p : Poly) (tol : ℚ) (maxIter : ℤ) (root polished : CC)
    (ht : 0 < tol) (hm : 1 ≤ maxIter) (ho : 4 ≤ order p)
    (hlag : laguerre O p 0 tol maxIter = .ok root)
    (hnewt : newt p tol maxIter root = some polished)
    (hfin : O.isfin (evalPoly p polished).re = false ∨
            O.isfin (evalPoly p polished).im = false) :
    polysolveC O p tol maxIter = .error .rootNotFinite := by
  have hstep : polysolveStep O tol maxIter ⟨p, p, []⟩ = .error .rootNotFinite :=
    polysolveStep_notFinite O tol maxIter ⟨p, p, []⟩ hlag hnewt hfin
  rw [polysolveC_dispatch_default O p tol maxIter ht hm ho]
  obtain ⟨k, hk⟩ : ∃ k, order p = k + 4 := ⟨order p - 4, by omega⟩
  rw [hk]
  have hloop : polysolveLoop O tol maxIter (k + 4) ⟨p, p, []⟩ = .error .rootNotFinite := by
    have h34 : 3 < order p := by omega
    show polysolveLoop O tol maxIter (k + 3 + 1) ⟨p, p, []⟩ = _
    unfold polysolveLoop
    simp only [hstep]
    rw [if_pos h34]
  rw [hloop]

theorem claimEight_witness :
    polysolveC oraclesNF pQuartW 1000 5 = .error .rootNotFinite :=
  claimEight oraclesNF pQuartW 1000 5 0 ⟨12 / 25, 0⟩ (by with_unfolding_all decide)
    (by decide) (by with_unfolding_all decide) (by with_unfolding_all decide)
    (by with_unfolding_all decide) (Or.inl (by with_unfolding_all decide))

/-- C4 (as amended): in the Laguerre loop, on every iteration whose counter
`i` satisfies `i % 10 = 0` — the first iteration included — the computed
step is REPLACED by the random scalar `dist(mt)` drawn from `[0.9, 1.1)`
(`*step = dist(mt)`, part_000 line 389); on all other iterations the
computed step is used unmodified in the update `root ← root − step`. -/
theorem claimFourAmended (O : Oracles) (p d1 d2 : Poly) (tol : ℚ) (i fuel : ℕ) (root : CC)
    (hres : ¬ CC.normSq (evalPoly p root) < tol ^ 2)
    (hstep : ¬ CC.normSq (laguerreStepWith O p d1 d2 root) < tol ^ 2) :
    laguerreLoop O p d1 d2 tol i (fuel + 1) root =
      laguerreLoop O p d1 d2 tol (i + 1) fuel
        (root - (if i % 10 = 0 then CC.ofRat (O.rand i)
                 else laguerreStepWith O p d1 d2 root)) := by
  show (if CC.normSq (evalPoly p root) < tol ^ 2 then (Except.ok root : Except Err CC)
        else if CC.normSq (laguerreStepWith O p d1 d2 root) < tol ^ 2 then .ok root
        else laguerreLoop O p d1 d2 tol (i + 1) fuel
          (root - (if i % 10 = 0 then CC.ofRat (O.rand i)
                   else laguerreStepWith O p d1 d2 root))) = _
  rw [if_neg hres, if_neg hstep]

theorem claimFourAmended_witness :
    laguerreLoop oraclesW pMono4 pMono4d1 pMono4d2 (1 / 1000) 0 1 1 =
      laguerreLoop oraclesW pMono4 pMono4d1 pMono4d2 (1 / 1000) 1 0
        (1 - (if 0 % 10 = 0 then CC.ofRat (oraclesW.rand 0)
              else laguerreStepWith oraclesW pMono4 pMono4d1 pMono4d2 1)) :=
  claimFourAmended oraclesW pMono4 pMono4d1 pMono4d2 (1 / 1000) 0 0 1
    (by with_unfolding_all decide) (by with_unfolding_all decide)

/-- C4, the claim as frozen, is false of the code: with every random draw
equal to `1` — so that multiplying the step by the drawn scalar would change
nothing — the run of `laguerre` on `x⁴` from guess `1` with two iterations
converges to the root `0`, because the code ASSIGNS the draw to the step
(`*step = dist(mt)`) on iteration 0; under the claimed multiplication
semantics (`laguerreClaimed`, modelled from the claim's words) the same run
cannot move by `1` and exhausts its budget instead. -/
theorem claimFour_counterexample :
    oraclesW.rand 0 = 1 ∧
    laguerre oraclesW pMono4 1 (1 / 1000) 2 = .ok 0 ∧
    laguerreClaimed oraclesW pMono4 1 (1 / 1000) 2 = .error .maxIterationsReached := by
  with_unfolding_all decide

/-- C1: each pass of `polysolve`'s deflation loop divides the working
polynomial by the linear factor `(x − root)` — the deflated polynomial `q`
satisfies `p(x) = (x − root)·q(x) + p(root)` at every point — reducing the
order by exactly one; the loop repeats until the working polynomial's order
reaches 3, the residual cubic is solved analytically, and on success the
root list is exactly `n − 3` iteratively extracted roots followed by the
3 roots of the residual cubic. -/
theorem claimOne :
    (∀ (p : Poly) (r x : CC),
      evalPoly p x = (x - r) * evalPoly (deflate p r) x + evalPoly p r) ∧
    (∀ (p : Poly) (r : CC), order (deflate p r) = order p - 1) ∧
    (∀ (O : Oracles) (p : Poly) (tol : ℚ) (maxIter : ℤ) (n : ℕ) (res : List CC),
      order p = n → 4 ≤ n →
      polysolveC O p tol maxIter = .ok res →
      ∃ iter cub residual,
        polysolveLoop O tol maxIter n ⟨p, p, []⟩ = .ok (iter ++ cub) ∧
        iter.length = n - 3 ∧
        order residual = 3 ∧
        cubic O residual EPS = .ok cub ∧
        cub.length = 3 ∧
        res.Perm (iter ++ cub)) := by
  refine ⟨deflate_spec, order_deflate, fun O p tol maxIter n res horder hn hok => ?_⟩
  obtain ⟨roots, hsort, ht, hm, h1, hdisp⟩ := polysolveC_ok_inv O p tol maxIter hok
  rcases hdisp with ⟨ho, _⟩ | ⟨ho, _⟩ | ⟨ho, _⟩ | ⟨ho, hloop⟩
  · omega
  · omega
  · omega
  · obtain ⟨iter, cub, residual, hres, hordEq, h3, hcub, hclen⟩ :=
      polysolveLoop_ok_decomp O tol maxIter (order p) ⟨p, p, []⟩ roots hloop
    have hres' : roots = iter ++ cub := by simpa using hres
    have hord' : order p = iter.length + 3 := hordEq
    rw [horder, hres'] at hloop
    refine ⟨iter, cub, residual, hloop, by omega, h3, hcub, hclen, ?_⟩
    exact hres' ▸ sortRootsC_ok_perm hsort

theorem claimOne_witness :
    ∃ iter cub residual res,
      polysolveC oraclesW pQuartW 1000 5 = .ok res ∧
      polysolveLoop oraclesW 1000 5 4 ⟨pQuartW, pQuartW, []⟩ = .ok (iter ++ cub) ∧
      iter.length = 1 ∧ order residual = 3 ∧ cubic oraclesW residual EPS = .ok cub ∧
      cub.length = 3 ∧ res.Perm (iter ++ cub) := by
  have hsome : (polysolveC oraclesW pQuartW 1000 5).toOption.isSome = true := by
    with_unfolding_all decide
  rcases hres : polysolveC oraclesW pQuartW 1000 5 with e | res
  · rw [hres] at hsome
    simp [Except.toOption] at hsome
  · obtain ⟨iter, cub, residual, hloop, hlen, h3, hcub, hclen, hperm⟩ :=
      claimOne.2.2 oraclesW pQuartW 1000 5 4 res (by with_unfolding_all decide)
        (by decide) hres
    exact ⟨iter, cub, residual, res, rfl, hloop, hlen, h3, hcub, hclen, hperm⟩

/-- C10: whenever `polysolve` succeeds with complex output on an input of
order `n ≥ 1`, the returned root set has exactly `n` elements — 1 for
linear, 2 for quadratic, 3 for cubic, and `(n − 3) + 3` for order ≥ 4 —
because the final complex sort is a permutation and drops nothing. -/
theorem claimTen (O : Oracles) (p : Poly) (tol : ℚ) (maxIter : ℤ) (n : ℕ) (res : List CC)
    (horder : order p = n) (hn : 1 ≤ n)
    (hok : polysolveC O p tol maxIter = .ok res) :
    res.length = n := by
  obtain ⟨roots, hsort, ht, hm, h1, hdisp⟩ := polysolveC_ok_inv O p tol maxIter hok
  have hlen : res.length = roots.length := sortRootsC_ok_length hsort
  rcases hdisp with ⟨ho, hs⟩ | ⟨ho, hs⟩ | ⟨ho, hs⟩ | ⟨ho, hloop⟩
  · obtain ⟨_, _, hr⟩ := linear_eq_ok hs
    omega
  · obtain ⟨_, _, hr⟩ := quadratic_eq_ok hs
    omega
  · obtain ⟨_, _, hr⟩ := cubic_eq_ok hs
    omega
  · obtain ⟨iter, cub, residual, hres, hordEq, h3, hcub, hclen⟩ :=
      polysolveLoop_ok_decomp O tol maxIter (order p) ⟨p, p, []⟩ roots hloop
    have hres' : roots = iter ++ cub := by simpa using hres
    have hord' : order p = iter.length + 3 := hordEq
    have hsum : roots.length = iter.length + cub.length := by
      rw [hres']
      simp
    omega

theorem claimTen_witness :
    ∃ res, polysolveC oraclesW pQuartW 1000 5 = .ok res ∧ res.length = 4 := by
  have hsome : (polysolveC oraclesW pQuartW 1000 5).toOption.isSome = true := by
    with_unfolding_all decide
  rcases hres : polysolveC oraclesW pQuartW 1000 5 with e | res
  · rw [hres] at hsome
    simp [Except.toOption] at hsome
  · exact ⟨res, rfl, claimTen oraclesW pQuartW 1000 5 4 res
      (by with_unfolding_all decide) (by decide) hres⟩

/-- C9: the caller's tolerance is not forwarded to the analytic sub-solvers
— `polysolve` invokes `linear`, `quadratic` and `cubic` (and the residual
cubic after deflation) with the library default `nxx::EPS` — so for any two
positive tolerances a run on an order 1–3 input fails identically or
returns the same multiset of roots (the caller's tolerance affects only the
final sort's order), and the loop's residual-cubic stage is the
tolerance-free `residualCubic`. -/
theorem claimNine (O : Oracles) (p : Poly) (tol1 tol2 : ℚ) (maxIter : ℤ)
    (ht1 : 0 < tol1) (ht2 : 0 < tol2) (hm : 1 ≤ maxIter)
    (ho : order p = 1 ∨ order p = 2 ∨ order p = 3) :
    (∀ e, polysolveC O p tol1 maxIter = .error e ↔ polysolveC O p tol2 maxIter = .error e) ∧
    (∀ l1 l2, polysolveC O p tol1 maxIter = .ok l1 → polysolveC O p tol2 maxIter = .ok l2 →
      l1.Perm l2) ∧
    (∀ (s : SolveState) (fuel : ℕ), order s.polynomial ≤ 3 →
      polysolveLoop O tol1 maxIter fuel s = residualCubic O s) := by
  have hloop3 : ∀ (s : SolveState) (fuel : ℕ), order s.polynomial ≤ 3 →
      polysolveLoop O tol1 maxIter fuel s = residualCubic O s := by
    intro s fuel hle
    cases fuel with
    | zero => rfl
    | succ f =>
      unfold polysolveLoop
      rw [if_neg (not_lt.mpr hle)]
  refine ⟨?_, ?_, hloop3⟩
  · intro e
    rcases ho with h1 | h2 | h3
    · rw [polysolveC_order1 O p tol1 maxIter ht1 hm h1,
        polysolveC_order1 O p tol2 maxIter ht2 hm h1]
      cases hl : linear p EPS with
      | error e0 => exact Iff.rfl
      | ok rs =>
        show sortRootsC rs tol1 = .error e ↔ sortRootsC rs tol2 = .error e
        rw [sortRootsC_of_pos rs ht1, sortRootsC_of_pos rs ht2]
        simp
    · rw [polysolveC_order2 O p tol1 maxIter ht1 hm h2,
        polysolveC_order2 O p tol2 maxIter ht2 hm h2]
      cases hl : quadratic O p EPS with
      | error e0 => exact Iff.rfl
      | ok rs =>
        show sortRootsC rs tol1 = .error e ↔ sortRootsC rs tol2 = .error e
        rw [sortRootsC_of_pos rs ht1, sortRootsC_of_pos rs ht2]
        simp
    · rw [polysolveC_order3 O p tol1 maxIter ht1 hm h3,
        polysolveC_order3 O p tol2 maxIter ht2 hm h3]
      cases hl : cubic O p EPS with
      | error e0 => exact Iff.rfl
      | ok rs =>
        show sortRootsC rs tol1 = .error e ↔ sortRootsC rs tol2 = .error e
        rw [sortRootsC_of_pos rs ht1, sortRootsC_of_pos rs ht2]
        simp
  · intro l1 l2 hh1 hh2
    rcases ho with h1 | h2 | h3
    · rw [polysolveC_order1 O p tol1 maxIter ht1 hm h1] at hh1
      rw [polysolveC_order1 O p tol2 maxIter ht2 hm h1] at hh2
      cases hl : linear p EPS with
      | error e0 =>
        rw [hl] at hh1
        exact absurd hh1 (by simp)
      | ok rs =>
        rw [hl] at hh1 hh2
        have hh1' : sortRootsC rs tol1 = .ok l1 := hh1
        have hh2' : sortRootsC rs tol2 = .ok l2 := hh2
        exact (sortRootsC_ok_perm hh1').trans (sortRootsC_ok_perm hh2').symm
    · rw [polysolveC_order2 O p tol1 maxIter ht1 hm h2] at hh1
      rw [polysolveC_order2 O p tol2 maxIter ht2 hm h2] at hh2
      cases hl : quadratic O p EPS with
      | error e0 =>
        rw [hl] at hh1
        exact absurd hh1 (by simp)
      | ok rs =>
        rw [hl] at hh1 hh2
        have hh1' : sortRootsC rs tol1 = .ok l1 := hh1
        have hh2' : sortRootsC rs tol2 = .ok l2 := hh2
        exact (sortRootsC_ok_perm hh1').trans (sortRootsC_ok_perm hh2').symm
    · rw [polysolveC_order3 O p tol1 maxIter ht1 hm h3] at hh1
      rw [polysolveC_order3 O p tol2 maxIter ht2 hm h3] at hh2
      cases hl : cubic O p EPS with
      | error e0 =>
        rw [hl] at hh1
        exact absurd hh1 (by simp)
      | ok rs =>
        rw [hl] at hh1 hh2
        have hh1' : sortRootsC rs tol1 = .ok l1 := hh1
        have hh2' : sortRootsC rs tol2 = .ok l2 := hh2
        exact (sortRootsC_ok_perm hh1').trans (sortRootsC_ok_perm hh2').symm

theorem claimNine_witness :
    ∃ l1 l2, polysolveC oraclesQ pQuadW (1 / 100) 5 = .ok l1 ∧
      polysolveC oraclesQ pQuadW 2 5 = .ok l2 ∧ l1.Perm l2 := by
  have s1 : (polysolveC oraclesQ pQuadW (1 / 100) 5).toOption.isSome = true := by
    with_unfolding_all decide
  have s2 : (polysolveC oraclesQ pQuadW 2 5).toOption.isSome = true := by
    with_unfolding_all decide
  rcases hh1 : polysolveC oraclesQ pQuadW (1 / 100) 5 with e | l1
  · rw [hh1] at s1
    simp [Except.toOption] at s1
  · rcases hh2 : polysolveC oraclesQ pQuadW 2 5 with e | l2
    · rw [hh2] at s2
      simp [Except.toOption] at s2
    · exact ⟨l1, l2, rfl, rfl,
        (claimNine oraclesQ pQuadW (1 / 100) 2 5 (by with_unfolding_all decide)
          (by decide) (by decide)
          (Or.inr (Or.inl (by with_unfolding_all decide)))).2.1 l1 l2 hh1 hh2⟩

end Numerix
